import Mathlib

/-!
Verification of the fontParts base object model (benkiel/fontParts).

The Python sources under `Lib/fontParts` are shallowly embedded below.
Numeric values (Python int/float) are modelled as rationals, fallible
calls return `Except PyErr`, and mutation is explicit state passing.
Each embedded definition carries the name of the Python function or
method it translates.
-/

namespace FontParts

/-- Exceptions raised by the embedded code.  `fontPartsError` is
`fontParts.base.errors.FontPartsError`; the others model Python's
built-in `AssertionError`, `UnboundLocalError`, `TypeError` and
`IndexError`. -/
inductive PyErr where
  | fontPartsError : String → PyErr
  | assertionError : PyErr
  | unboundLocalError : PyErr
  | typeError : PyErr
  | indexError : PyErr
deriving DecidableEq, Repr

/-! ## `fontParts.base.base.interpolate` (module helper, base.py line 595) -/

/-- `interpolate(a, b, v)` from base.py: `return a + (b - a) * v`. -/
def interpolate (a b v : ℚ) : ℚ :=
  a + (b - a) * v

/-! ## `BaseObject.raiseNotImplementedError` (base.py lines 91-96)

The Python method raises
`FontPartsError("The {className} subclass does not implement this method.")`
where `className` is `self.__class__.__name__`.  The embedding takes the
class name as an argument. -/

/-- `BaseObject.raiseNotImplementedError` from base.py. -/
def raiseNotImplementedError (α : Type) (className : String) : Except PyErr α :=
  .error (.fontPartsError
    ("The " ++ className ++ " subclass does not implement this method."))

/-- `BaseFeatures._get_text` (features.py lines 71-79): the body is a
bare `self.raiseNotImplementedError()`. -/
def BaseFeatures_get_text (className : String) : Except PyErr String :=
  raiseNotImplementedError String className

/-- `BaseFeatures._set_text` (features.py lines 81-89): the body is a
bare `self.raiseNotImplementedError()`. -/
def BaseFeatures_set_text (className : String) (_value : String) : Except PyErr Unit :=
  raiseNotImplementedError Unit className

/-- `BaseDict._items` (base.py lines 161-165): the base implementation is
a bare `self.raiseNotImplementedError()`. -/
def BaseDict_items_base (K V : Type) (className : String) : Except PyErr (List (K × V)) :=
  raiseNotImplementedError (List (K × V)) className

/-- `BaseFont._save` (font.py lines 197-215): the base implementation is
a bare `self.raiseNotImplementedError()`. -/
def BaseFont_save_base (className : String) : Except PyErr Unit :=
  raiseNotImplementedError Unit className

/-! ## Python values, for `fontParts/objects/base/validators.py`

The validators take arbitrary Python values.  `PyVal` models the slice of
the Python value universe the validators inspect: ints, floats, bools
(`isinstance(True, int)` holds in Python, so bools count as ints below),
strings (as lists of character code points, covering Python 2
`basestring`), tuples, lists and `None`. -/

inductive PyVal where
  | pyInt : Int → PyVal
  | pyFloat : ℚ → PyVal
  | pyBool : Bool → PyVal
  | pyStr : List Nat → PyVal
  | pyTuple : List PyVal → PyVal
  | pyList : List PyVal → PyVal
  | pyNone : PyVal

/-- `isinstance(value, (int, float))` on a `PyVal`.  Python bools are
instances of `int`. -/
def pyIsIntFloat : PyVal → Bool
  | .pyInt _ => true
  | .pyFloat _ => true
  | .pyBool _ => true
  | _ => false

/-- Python `float(value)` on an int, float or bool. -/
def pyToFloat : PyVal → ℚ
  | .pyInt n => (n : ℚ)
  | .pyFloat q => q
  | .pyBool b => if b then 1 else 0
  | _ => 0

/-! ## `validateIdentifier` (validators.py lines 60-69) -/

/-- `validateIdentifier(value)` from validators.py: raise unless the value
is a string of length at most 100 whose characters all have code points
in `0x20 .. 0x7E`; otherwise return the value unchanged.  The Python loop
raises at the first offending character; the embedding tests all
characters at once, which yields the same result. -/
def validateIdentifier (value : PyVal) : Except PyErr PyVal :=
  match value with
  | .pyStr s =>
    if s.length > 100 then
      .error (.fontPartsError
        "The identifier string has a length greater than the maximum allowed (100).")
    else if s.all (fun c => decide (0x20 ≤ c) && decide (c ≤ 0x7E)) then
      .ok (.pyStr s)
    else
      .error (.fontPartsError
        "The identifier string contains a character out of the range 0x20 - 0x7E.")
  | _ => .error (.fontPartsError "Identifiers must be strings.")

/-! ## `validateTransformationMatrix` (validators.py lines 117-125) -/

/-- The loop body of `validateTransformationMatrix` once the container has
been accepted: check the length is six, check every element is an int or
float, and return `tuple(float(v) for v in value)`. -/
def validateMatrixValues (xs : List PyVal) : Except PyErr PyVal :=
  if xs.length ≠ 6 then
    .error (.fontPartsError "Transformation matrices must contain six values.")
  else if xs.all pyIsIntFloat then
    .ok (.pyTuple (xs.map (fun x => .pyFloat (pyToFloat x))))
  else
    .error (.fontPartsError
      "Transformation matrix values must be instances of int or float.")

/-- `validateTransformationMatrix(value)` from validators.py. -/
def validateTransformationMatrix (value : PyVal) : Except PyErr PyVal :=
  match value with
  | .pyTuple xs => validateMatrixValues xs
  | .pyList xs => validateMatrixValues xs
  | _ => .error (.fontPartsError "Transformation matrices must be tuple instances.")

/-! ## `BaseDict.items` (base.py lines 152-159)

A `BaseDict` carries two optional normalizers (class attributes
`keyNormalizer` / `valueNormalizer`, both `None` on the base class) and a
backend hook `_items` supplied by the subclass; the hook may itself raise
(the base implementation always does).  `items` reads `self._items()`,
and only when **both** normalizers are set does it assign the local
variable `values`; `return values` with the local unassigned raises
Python's `UnboundLocalError`. -/

structure BaseDict (K V : Type) where
  keyNormalizer : Option (K → K)
  valueNormalizer : Option (V → V)
  rawItems : Except PyErr (List (K × V))

/-- `BaseDict.items` from base.py. -/
def BaseDict.items (d : BaseDict K V) : Except PyErr (List (K × V)) :=
  match d.rawItems with
  | .error e => .error e
  | .ok items =>
    match d.keyNormalizer, d.valueNormalizer with
    | some kn, some vn => .ok (items.map (fun kv => (kn kv.1, vn kv.2)))
    | _, _ => .error .unboundLocalError

/-! ## `dynamicProperty` (base.py lines 505-592)

`dynamicProperty("n")` is a descriptor whose `__get__` does
`getattr(obj, "_get_" + n, None)` **on the instance at access time** and
calls the found method, raising `FontPartsError` when none exists;
`__set__` does the same with `"_set_" + n`.  Attribute lookup on a Python
instance walks the class hierarchy most-derived first.  The embedding
models an instance as an internal state `S` together with its method
resolution order: a list of per-class method tables, most derived first.
A table entry is either a zero-argument getter (`S → V`) or a
one-argument setter (`S → V → S`); calling one as the other raises
`TypeError`, as in Python. -/

/-- A method found by `getattr`: a getter or a setter body. -/
inductive PyMethod (S V : Type) where
  | getter : (S → V) → PyMethod S V
  | setter : (S → V → S) → PyMethod S V

/-- An instance: its method resolution order (most derived class first)
and its state. -/
structure DynInstance (S V : Type) where
  mro : List (String → Option (PyMethod S V))
  state : S

/-- Python attribute lookup over the method resolution order: the first
class table defining the name wins. -/
def getattrMRO (mro : List (String → Option (PyMethod S V))) (name : String) :
    Option (PyMethod S V) :=
  match mro with
  | [] => none
  | t :: ts =>
    match t name with
    | some m => some m
    | none => getattrMRO ts name

/-- `dynamicProperty.__get__` from base.py: look up `_get_<name>` on the
instance at access time and call it; raise `FontPartsError` when the
method does not exist. -/
def dynamicProperty_get (name : String) (obj : DynInstance S V) : Except PyErr V :=
  match getattrMRO obj.mro ("_get_" ++ name) with
  | some (.getter f) => .ok (f obj.state)
  | some (.setter _) => .error .typeError
  | none => .error (.fontPartsError ("no getter for " ++ name))

/-- `dynamicProperty.__set__` from base.py: look up `_set_<name>` on the
instance at access time and call it with the value; raise
`FontPartsError` when the method does not exist. -/
def dynamicProperty_set (name : String) (obj : DynInstance S V) (value : V) :
    Except PyErr S :=
  match getattrMRO obj.mro ("_set_" ++ name) with
  | some (.setter f) => .ok (f obj.state value)
  | some (.getter _) => .error .typeError
  | none => .error (.fontPartsError ("no setter for " ++ name))

/-! ## Parent back-references

`BasePoint._get_contour/_set_contour` (point.py lines 52-92),
`BaseSegment._get_contour/_set_contour` (segment.py lines 40-80) and
`BaseFeatures._get_font/_set_font` (features.py lines 32-45).

The slot (`_contour` / `_font`) starts as `None`.  The setter for points
and segments runs `assert self._contour is None` and then stores
`weakref.ref(parent)` (or `None` when the argument is `None`).  The
setter for features runs the weaker
`assert self._font is None or self._font() == font`.  The embedding names
parent objects by `Nat` identity; a stored weak reference is modelled as
the referent's identity (referents are assumed alive, so a getter
dereferences successfully).  Failing `assert` raises `AssertionError`. -/

/-- `BasePoint._set_contour` from point.py. -/
def BasePoint_set_contour (cur newC : Option Nat) : Except PyErr (Option Nat) :=
  match cur with
  | some _ => .error .assertionError
  | none => .ok newC

/-- `BaseSegment._set_contour` from segment.py (same body as the point's
setter). -/
def BaseSegment_set_contour (cur newC : Option Nat) : Except PyErr (Option Nat) :=
  match cur with
  | some _ => .error .assertionError
  | none => .ok newC

/-- `BaseFeatures._set_font` from features.py: the assertion also passes
when the stored font equals the assigned font. -/
def BaseFeatures_set_font (cur newF : Option Nat) : Except PyErr (Option Nat) :=
  match cur with
  | none => .ok newF
  | some f => if newF = some f then .ok newF else .error .assertionError

/-- `BasePoint._get_contour` from point.py: `None` when the slot is
unset, otherwise the dereferenced weak reference. -/
def BasePoint_get_contour (cur : Option Nat) : Option Nat :=
  match cur with
  | none => none
  | some c => some c

/-- `BaseSegment._get_contour` from segment.py. -/
def BaseSegment_get_contour (cur : Option Nat) : Option Nat :=
  match cur with
  | none => none
  | some c => some c

/-- `BaseFeatures._get_font` from features.py. -/
def BaseFeatures_get_font (cur : Option Nat) : Option Nat :=
  match cur with
  | none => none
  | some f => some f

/-- `BasePoint._get_glyph` from point.py: `None` when `_contour` is
unset, otherwise `self.contour.glyph` (the traversal is the environment
map `glyphOf`). -/
def BasePoint_get_glyph (cur : Option Nat) (glyphOf : Nat → Option Nat) : Option Nat :=
  match cur with
  | none => none
  | some c => glyphOf c

/-- `BasePoint._get_layer` from point.py: `None` when `_contour` is
unset, otherwise `self.glyph.layer`. -/
def BasePoint_get_layer (cur : Option Nat) (layerOf : Nat → Option Nat) : Option Nat :=
  match cur with
  | none => none
  | some c => layerOf c

/-- `BasePoint._get_font` from point.py: `None` when `_contour` is unset,
otherwise `self.glyph.font`. -/
def BasePoint_get_font (cur : Option Nat) (fontOf : Nat → Option Nat) : Option Nat :=
  match cur with
  | none => none
  | some c => fontOf c

/-- `BaseSegment._get_glyph` from segment.py. -/
def BaseSegment_get_glyph (cur : Option Nat) (glyphOf : Nat → Option Nat) : Option Nat :=
  match cur with
  | none => none
  | some c => glyphOf c

/-- `BaseSegment._get_layer` from segment.py. -/
def BaseSegment_get_layer (cur : Option Nat) (layerOf : Nat → Option Nat) : Option Nat :=
  match cur with
  | none => none
  | some c => layerOf c

/-- `BaseSegment._get_font` from segment.py. -/
def BaseSegment_get_font (cur : Option Nat) (fontOf : Nat → Option Nat) : Option Nat :=
  match cur with
  | none => none
  | some c => fontOf c

/-! ## `TransformationMixin.transformBy` and `BasePoint._transformBy`

`transformBy` (base.py lines 307-332) normalizes the matrix, replaces an
origin of `None` by `(0, 0)`, and computes
`originOffset = origin - M(origin)` — **except** that when the origin is
`(0, 0)` it short-circuits to `originOffset = (0, 0)`.  It then calls the
environment hook `_transformBy`.  `BasePoint._transformBy` (point.py
lines 419-440) sets the coordinates to `M(x, y)` and, when `originOffset`
is not `(0, 0)`, moves by `originOffset` (via `moveBy`, which bottoms out
in an offset-matrix `transformBy` with the default origin and adds the
offset to the coordinates).

The affine transform itself, `fontTools.misc.transform.Transform`, is the
external geometry library.  Modelled from the spec: with
`M = (a, b, c, d, dx, dy)`, `transformPoint` maps
`(x, y) ↦ (a*x + c*y + dx, b*x + d*y + dy)` (the standard 2x2-plus-offset
affine map the spec's "transform composition" refers to). -/

/-- A normalized transformation matrix `(a, b, c, d, dx, dy)`. -/
structure Matrix6 where
  a : ℚ
  b : ℚ
  c : ℚ
  d : ℚ
  dx : ℚ
  dy : ℚ
deriving DecidableEq, Repr

/-- Modelled from the spec: `fontTools` `Transform(*matrix).transformPoint`,
the affine application `M·p` (the geometry is delegated to the external
library; this is its documented behavior). -/
def transformPoint (m : Matrix6) (p : ℚ × ℚ) : ℚ × ℚ :=
  (m.a * p.1 + m.c * p.2 + m.dx, m.b * p.1 + m.d * p.2 + m.dy)

/-- `BasePoint._transformBy` from point.py: apply the matrix to the
coordinates, then move by `originOffset` when it is not `(0, 0)`. -/
def BasePoint_transformBy_impl (p : ℚ × ℚ) (m : Matrix6) (originOffset : ℚ × ℚ) :
    ℚ × ℚ :=
  let q := transformPoint m p
  if originOffset ≠ ((0 : ℚ), (0 : ℚ)) then
    (q.1 + originOffset.1, q.2 + originOffset.2)
  else
    q

/-- `TransformationMixin.transformBy` from base.py, specialised to a
point: default the origin to `(0, 0)`, take `originOffset = (0, 0)` when
the origin is `(0, 0)` and `origin - M(origin)` otherwise, then run the
point's `_transformBy`. -/
def point_transformBy (p : ℚ × ℚ) (m : Matrix6) (origin : Option (ℚ × ℚ)) :
    ℚ × ℚ :=
  let o := origin.getD ((0 : ℚ), (0 : ℚ))
  let originOffset :=
    if o = ((0 : ℚ), (0 : ℚ)) then ((0 : ℚ), (0 : ℚ))
    else
      let ao := transformPoint m o
      (o.1 - ao.1, o.2 - ao.2)
  BasePoint_transformBy_impl p m originOffset

/-! ## `BaseFont.newLayer` (font.py lines 659-680)

`newLayer(name, color)` normalizes the name; when the name is already in
`self.layerOrder` it fetches the layer with `getLayer(name)`, assigns
`layer.color = color` when `color is not None`, and returns that layer —
`_newLayer` is never called.  Otherwise it normalizes the color (when not
`None`) and calls the backend hook `_newLayer(name, color)`.

`getLayer` (font.py lines 627-656) normalizes the name and runs the base
`_getLayer`, which scans `self.layers` for the first layer with that name
and raises `FontPartsError` when none exists.

Parts not under src/ are modelled from the spec:
* `normalizers.normalizeLayerName` (normalizers.py is absent; the src
  analog `validators.validateLayerName` requires a string of length at
  least one and returns it): modelled as rejecting the empty string.
* `normalizers.normalizeColor` (the src analog `validators.validateColor`
  requires four components each between 0 and 1 and returns the tuple).
* the layer backend (`BaseFont._get_layerOrder`, `BaseFont._newLayer`
  bottom out in `raiseNotImplementedError`): modelled as a font owning a
  list of layers, `layerOrder` listing their names in order, `_newLayer`
  appending a fresh layer with the given name and color.

A mutation of the layer object returned by `getLayer` is shared with the
font, so assigning its color rewrites the first layer with that name in
the font's list.  The `Bool` in the result records whether the backend
hook `_newLayer` was invoked. -/

/-- A color `(r, g, b, a)`. -/
abbrev PyColor : Type := ℚ × ℚ × ℚ × ℚ

/-- A layer: its name and optional color.  Modelled from the spec: the
backend layer object holds exactly the data `newLayer` touches. -/
structure RLayer where
  name : String
  color : Option PyColor
deriving DecidableEq, Repr

/-- A font: its ordered list of layers.  Modelled from the spec (the
backend storage behind `BaseFont.layers`). -/
structure RFont where
  layers : List RLayer
deriving DecidableEq, Repr

/-- Modelled from the spec: `normalizers.normalizeLayerName` (absent
normalizers.py; src analog `validators.validateLayerName`): layer names
are strings at least one character long, returned unchanged. -/
def normalizeLayerName (name : String) : Except PyErr String :=
  if name.length < 1 then
    .error (.fontPartsError "Layer names must be at least one character long.")
  else
    .ok name

/-- Modelled from the spec: `normalizers.normalizeColor` (absent
normalizers.py; src analog `validators.validateColor`): each of the four
components must lie between 0 and 1; the tuple is returned. -/
def normalizeColor (c : PyColor) : Except PyErr PyColor :=
  if 0 ≤ c.1 ∧ c.1 ≤ 1 ∧ 0 ≤ c.2.1 ∧ c.2.1 ≤ 1 ∧
      0 ≤ c.2.2.1 ∧ c.2.2.1 ≤ 1 ∧ 0 ≤ c.2.2.2 ∧ c.2.2.2 ≤ 1 then
    .ok c
  else
    .error (.fontPartsError "The value for the component is not between 0 and 1.")

/-- `BaseFont.layerOrder`, modelled from the spec: the names of the
font's layers in order (`_get_layerOrder` is an abstract hook). -/
def RFont.layerOrder (f : RFont) : List String :=
  f.layers.map RLayer.name

/-- `BaseFont.getLayer` / `BaseFont._getLayer` from font.py: normalize
the name, scan `self.layers` for the first layer with that name, raise
`FontPartsError` when none exists. -/
def getLayer (f : RFont) (name : String) : Except PyErr RLayer :=
  match normalizeLayerName name with
  | .error e => .error e
  | .ok name =>
    match f.layers.find? (fun l => l.name == name) with
    | some l => .ok l
    | none =>
      .error (.fontPartsError ("No layer with the name " ++ name ++ " exists."))

/-- Assigning `layer.color = col` on the layer returned by `getLayer`
rewrites the first layer with that name inside the font's layer list
(the Python objects are shared). -/
def setLayerColorIn (ls : List RLayer) (name : String) (col : Option PyColor) :
    List RLayer :=
  match ls with
  | [] => []
  | l :: rest =>
    if l.name = name then { l with color := col } :: rest
    else l :: setLayerColorIn rest name col

/-- `BaseFont.newLayer` from font.py.  The returned `Bool` records
whether the backend hook `_newLayer` was called. -/
def newLayer (f : RFont) (name : String) (color : Option PyColor) :
    Except PyErr (RLayer × RFont × Bool) :=
  match normalizeLayerName name with
  | .error e => .error e
  | .ok name =>
    if f.layerOrder.contains name then
      match getLayer f name with
      | .error e => .error e
      | .ok layer =>
        match color with
        | none => .ok (layer, f, false)
        | some col =>
          .ok ({ layer with color := some col },
               ⟨setLayerColorIn f.layers name (some col)⟩, false)
    else
      match color with
      | none => .ok (⟨name, none⟩, ⟨f.layers ++ [⟨name, none⟩]⟩, true)
      | some col =>
        match normalizeColor col with
        | .error e => .error e
        | .ok c => .ok (⟨name, some c⟩, ⟨f.layers ++ [⟨name, some c⟩]⟩, true)

/-! ## `BaseSegment._set_type` (segment.py lines 125-159)

A segment owns a tuple `_points` of point objects; its on-curve point is
`points[-1]`, its off-curve points are `points[:-1]`, and its type is the
on-curve point's type.  `_set_type(newType)`:

* returns immediately when the type is unchanged;
* raises `FontPartsError` when the segment has no parent contour;
* for a `move`/`line` to `line`/`move` conversion only re-types the
  on-curve point;
* when converting away from a curve (`newType` not `curve`/`qcurve`),
  removes every off-curve point from the contour and re-types the
  on-curve point;
* when converting to a curve, looks up the previous segment
  (`segments[i - 1]`, which in Python wraps to the last segment when
  `i == 0`), inserts two off-curve points immediately before the on-curve
  point — one at the previous segment's on-curve coordinates, one at this
  segment's on-curve coordinates — rebuilds `_points` as
  `(off1, off2, onCurve)` and re-types the on-curve point.

Points are mutable shared objects; the embedding gives each point an
identity `pid` and threads the contour's point list explicitly.  The
parent contour object (`fontParts.base.contour.BaseContour`, not under
src/) is modelled from the spec: a contour is an ordered list of points;
`contour.segments` groups the points into runs of off-curve points each
closed by the following on-curve point; `contour.insertPoint(i, pos, t)`
inserts a freshly created point at index `i`; `contour.removePoint(p)`
removes the point `p`; `contour.points.index(p)` is the index of the
first point equal (identical) to `p`; `segments.index(self)` compares
segments by their point tuples (`BaseSegment.__eq__`). -/

/-- The five point types of `normalizePointType`. -/
inductive PointType where
  | move
  | line
  | curve
  | qcurve
  | offcurve
deriving DecidableEq, Repr

/-- A contour point: identity, coordinates and type. -/
structure CPoint where
  pid : Nat
  x : ℚ
  y : ℚ
  ptype : PointType
deriving DecidableEq, Repr

instance : Inhabited CPoint := ⟨⟨0, 0, 0, .move⟩⟩

/-- Modelled from the spec: `BaseContour.segments` — the contour's points
grouped into segments, each a run of off-curve points closed by the next
on-curve point (leading off-curve points attach to the first closing
on-curve point; a trailing run with no closing on-curve point does not
form a segment). -/
def segmentsOf : List CPoint → List (List CPoint)
  | [] => []
  | p :: ps =>
    if p.ptype = .offcurve then
      match segmentsOf ps with
      | [] => []
      | s :: ss => (p :: s) :: ss
    else
      [p] :: segmentsOf ps

/-- Modelled from the spec: `contour.removePoint(point)` — remove the
point with that identity from the contour's point list. -/
def removePoint (c : List CPoint) (pid : Nat) : List CPoint :=
  c.eraseP (fun q => q.pid == pid)

/-- Modelled from the spec: `contour.insertPoint(i, (x, y), type)` —
insert a freshly created point (identity `fresh`) at index `i`. -/
def insertPoint (c : List CPoint) (i : Nat) (x y : ℚ) (t : PointType)
    (fresh : Nat) : List CPoint :=
  c.insertIdx i ⟨fresh, x, y, t⟩

/-- Shared mutation `point.type = t`: re-type the point with identity
`pid` wherever it occurs. -/
def setPointType (c : List CPoint) (pid : Nat) (t : PointType) : List CPoint :=
  c.map (fun q => if q.pid = pid then { q with ptype := t } else q)

/-- `BaseSegment._set_type` from segment.py.  `selfPts` is the segment's
`_points` tuple, `contour?` its parent contour's point list (`none` when
the segment has no parent), `fresh1`/`fresh2` the identities of the
points created by the two `insertPoint` calls.  Returns the new `_points`
tuple and the new contour.  An empty `_points` tuple or a missing
previous segment would crash Python's list indexing; the embedding
returns `indexError` there. -/
def set_type (selfPts : List CPoint) (contour? : Option (List CPoint))
    (newType : PointType) (fresh1 fresh2 : Nat) :
    Except PyErr (List CPoint × Option (List CPoint)) :=
  match selfPts.getLast? with
  | none => .error .indexError
  | some onPt =>
    if onPt.ptype = newType then
      .ok (selfPts, contour?)
    else
      match contour? with
      | none => .error (.fontPartsError "The segment does not belong to a contour.")
      | some c =>
        if (newType = .move ∨ newType = .line) ∧
            (onPt.ptype = .move ∨ onPt.ptype = .line) then
          .ok (setPointType selfPts onPt.pid newType,
               some (setPointType c onPt.pid newType))
        else if ¬ (newType = .curve ∨ newType = .qcurve) then
          let c2 := selfPts.dropLast.foldl (fun acc q => removePoint acc q.pid) c
          .ok (setPointType selfPts onPt.pid newType,
               some (setPointType c2 onPt.pid newType))
        else
          let segs := segmentsOf c
          let i := segs.findIdx (fun s => s.map CPoint.pid == selfPts.map CPoint.pid)
          match if i = 0 then segs.getLast? else segs.get? (i - 1) with
          | none => .error .indexError
          | some prevSeg =>
            match prevSeg.getLast? with
            | none => .error .indexError
            | some prev =>
              let j := c.findIdx (fun q => q.pid == onPt.pid)
              let c1 := insertPoint c j onPt.x onPt.y .offcurve fresh2
              let off2 := c1.getD j default
              let c2 := insertPoint c1 j prev.x prev.y .offcurve fresh1
              let off1 := c2.getD j default
              .ok (setPointType [off1, off2, onPt] onPt.pid newType,
                   some (setPointType c2 onPt.pid newType))

end FontParts

/-- C2: the module-level helper `interpolate(a, b, v)` returns exactly
`a + (b - a) * v`; in particular `interpolate a b 0 = a` and
`interpolate a b 1 = b` for every `a` and `b`. -/
theorem interpolate_is_lerp (a b v : ℚ) :
    FontParts.interpolate a b v = a + (b - a) * v ∧
    FontParts.interpolate a b 0 = a ∧
    FontParts.interpolate a b 1 = b := by
  refine ⟨rfl, ?_, ?_⟩ <;> simp [FontParts.interpolate]

/-- C10: `raiseNotImplementedError` never returns normally, always raises a
`FontPartsError` whose message contains the receiving object's class name,
and the base-class backend hooks `BaseFeatures._get_text`,
`BaseFeatures._set_text`, `BaseDict._items` and `BaseFont._save`, which
delegate to it, never return normally either. -/
theorem raiseNotImplementedError_always_raises (className : String) :
    (∀ (α : Type) (a : α), FontParts.raiseNotImplementedError α className ≠ .ok a) ∧
    (∃ pre post,
      FontParts.raiseNotImplementedError Unit className =
        .error (.fontPartsError (pre ++ className ++ post))) ∧
    (∀ s, FontParts.BaseFeatures_get_text className ≠ .ok s) ∧
    (∀ v u, FontParts.BaseFeatures_set_text className v ≠ .ok u) ∧
    (∀ l, FontParts.BaseDict_items_base ℚ ℚ className ≠ .ok l) ∧
    (∀ u, FontParts.BaseFont_save_base className ≠ .ok u) := by
  refine ⟨?_, ⟨"The ", " subclass does not implement this method.", rfl⟩, ?_, ?_, ?_, ?_⟩ <;>
    intros <;>
    simp [FontParts.raiseNotImplementedError, FontParts.BaseFeatures_get_text,
      FontParts.BaseFeatures_set_text, FontParts.BaseDict_items_base,
      FontParts.BaseFont_save_base]

/-- C6: `validateIdentifier(value)` raises `FontPartsError` if and only if
the value is not a string, or its length exceeds 100, or some character's
code point lies outside `0x20 .. 0x7E`; every string of length at most 100
whose characters all lie in that range is returned unchanged. -/
theorem validateIdentifier_spec (v : FontParts.PyVal) :
    ((∃ e, FontParts.validateIdentifier v = .error e) ↔
      ¬ (∃ s, v = .pyStr s ∧ s.length ≤ 100 ∧ ∀ c ∈ s, 0x20 ≤ c ∧ c ≤ 0x7E)) ∧
    (∀ s, v = .pyStr s → s.length ≤ 100 → (∀ c ∈ s, 0x20 ≤ c ∧ c ≤ 0x7E) →
      FontParts.validateIdentifier v = .ok v) ∧
    (∀ e, FontParts.validateIdentifier v = .error e →
      ∃ msg, e = .fontPartsError msg) := by
  refine ⟨?_, ?_, ?_⟩
  · constructor
    · rintro ⟨e, he⟩ ⟨s, rfl, hlen, hchars⟩
      simp only [FontParts.validateIdentifier] at he
      rw [if_neg (by omega)] at he
      rw [if_pos ?_] at he
      · exact absurd he (by simp)
      · exact List.all_eq_true.mpr fun c hc => by
          have := hchars c hc
          simp [this.1, this.2]
    · intro hbad
      match v with
      | .pyInt _ | .pyFloat _ | .pyBool _ | .pyTuple _ | .pyList _ | .pyNone =>
        exact ⟨_, rfl⟩
      | .pyStr s =>
        simp only [FontParts.validateIdentifier]
        by_cases hlen : s.length > 100
        · rw [if_pos hlen]; exact ⟨_, rfl⟩
        · rw [if_neg hlen]
          have hch : ¬ ∀ c ∈ s, 0x20 ≤ c ∧ c ≤ 0x7E := by
            intro h
            exact hbad ⟨s, rfl, by omega, h⟩
          rw [if_neg]
          · exact ⟨_, rfl⟩
          · intro hall
            apply hch
            intro c hc
            have := List.all_eq_true.mp hall c hc
            simp only [Bool.and_eq_true, decide_eq_true_eq] at this
            exact this
  · rintro s rfl hlen hchars
    simp only [FontParts.validateIdentifier]
    rw [if_neg (by omega), if_pos]
    exact List.all_eq_true.mpr fun c hc => by
      have := hchars c hc
      simp [this.1, this.2]
  · intro e he
    match v with
    | .pyInt _ | .pyFloat _ | .pyBool _ | .pyTuple _ | .pyList _ | .pyNone =>
      simp only [FontParts.validateIdentifier, Except.error.injEq] at he
      exact ⟨_, he.symm⟩
    | .pyStr s =>
      simp only [FontParts.validateIdentifier] at he
      by_cases hlen : s.length > 100
      · rw [if_pos hlen] at he
        simp only [Except.error.injEq] at he
        exact ⟨_, he.symm⟩
      · rw [if_neg hlen] at he
        by_cases hall : s.all (fun c => decide (0x20 ≤ c) && decide (c ≤ 0x7E)) = true
        · rw [if_pos hall] at he; exact absurd he (by simp)
        · rw [if_neg hall] at he
          simp only [Except.error.injEq] at he
          exact ⟨_, he.symm⟩

/-- Witness for C6: the two-character string "AB" is accepted unchanged. -/
theorem validateIdentifier_spec_witness :
    FontParts.validateIdentifier (.pyStr [0x41, 0x42]) = .ok (.pyStr [0x41, 0x42]) :=
  (validateIdentifier_spec (.pyStr [0x41, 0x42])).2.1 [0x41, 0x42] rfl
    (by decide) (by decide)

/-- C7: `validateTransformationMatrix(value)` returns the canonical form
`tuple(float(v) for v in value)` — a tuple of six floats — if and only if
the value is a tuple or list containing exactly six values each of which
is an int or float; for any other input it raises `FontPartsError`. -/
theorem validateTransformationMatrix_spec (v : FontParts.PyVal) :
    (∀ xs, (v = .pyTuple xs ∨ v = .pyList xs) → xs.length = 6 →
      (∀ x ∈ xs, FontParts.pyIsIntFloat x = true) →
      FontParts.validateTransformationMatrix v =
        .ok (.pyTuple (xs.map (fun x => .pyFloat (FontParts.pyToFloat x))))) ∧
    ((∃ r, FontParts.validateTransformationMatrix v = .ok r) ↔
      ∃ xs, (v = .pyTuple xs ∨ v = .pyList xs) ∧ xs.length = 6 ∧
        ∀ x ∈ xs, FontParts.pyIsIntFloat x = true) ∧
    (∀ e, FontParts.validateTransformationMatrix v = .error e →
      ∃ msg, e = .fontPartsError msg) := by
  have hgo : ∀ xs : List FontParts.PyVal, xs.length = 6 →
      (∀ x ∈ xs, FontParts.pyIsIntFloat x = true) →
      FontParts.validateMatrixValues xs =
        .ok (.pyTuple (xs.map (fun x => .pyFloat (FontParts.pyToFloat x)))) := by
    intro xs hlen hall
    simp only [FontParts.validateMatrixValues]
    rw [if_neg (by omega), if_pos (List.all_eq_true.mpr hall)]
  have hgoChar : ∀ xs : List FontParts.PyVal,
      (∃ r, FontParts.validateMatrixValues xs = .ok r) ↔
      (xs.length = 6 ∧ ∀ x ∈ xs, FontParts.pyIsIntFloat x = true) := by
    intro xs
    constructor
    · rintro ⟨r, hr⟩
      simp only [FontParts.validateMatrixValues] at hr
      by_cases hlen : xs.length ≠ 6
      · rw [if_pos hlen] at hr; exact absurd hr (by simp)
      · rw [if_neg hlen] at hr
        by_cases hall : xs.all FontParts.pyIsIntFloat = true
        · exact ⟨by omega, List.all_eq_true.mp hall⟩
        · rw [if_neg hall] at hr; exact absurd hr (by simp)
    · rintro ⟨hlen, hall⟩
      exact ⟨_, hgo xs hlen hall⟩
  have hgoErr : ∀ (xs : List FontParts.PyVal) (e : FontParts.PyErr),
      FontParts.validateMatrixValues xs = .error e →
      ∃ msg, e = .fontPartsError msg := by
    intro xs e he
    simp only [FontParts.validateMatrixValues] at he
    by_cases hlen : xs.length ≠ 6
    · rw [if_pos hlen] at he
      simp only [Except.error.injEq] at he
      exact ⟨_, he.symm⟩
    · rw [if_neg hlen] at he
      by_cases hall : xs.all FontParts.pyIsIntFloat = true
      · rw [if_pos hall] at he; exact absurd he (by simp)
      · rw [if_neg hall] at he
        simp only [Except.error.injEq] at he
        exact ⟨_, he.symm⟩
  refine ⟨?_, ?_, ?_⟩
  · rintro xs (rfl | rfl) hlen hall
    · simpa only [FontParts.validateTransformationMatrix] using hgo xs hlen hall
    · simpa only [FontParts.validateTransformationMatrix] using hgo xs hlen hall
  · match v with
    | .pyTuple xs =>
      simp only [FontParts.validateTransformationMatrix]
      rw [hgoChar xs]
      constructor
      · rintro ⟨hlen, hall⟩; exact ⟨xs, Or.inl rfl, hlen, hall⟩
      · rintro ⟨ys, (h | h), hlen, hall⟩ <;> cases h
        · exact ⟨hlen, hall⟩
    | .pyList xs =>
      simp only [FontParts.validateTransformationMatrix]
      rw [hgoChar xs]
      constructor
      · rintro ⟨hlen, hall⟩; exact ⟨xs, Or.inr rfl, hlen, hall⟩
      · rintro ⟨ys, (h | h), hlen, hall⟩ <;> cases h
        · exact ⟨hlen, hall⟩
    | .pyInt _ | .pyFloat _ | .pyBool _ | .pyStr _ | .pyNone =>
      simp only [FontParts.validateTransformationMatrix]
      constructor
      · rintro ⟨r, hr⟩; exact absurd hr (by simp)
      · rintro ⟨ys, (h | h), _, _⟩ <;> cases h
  · intro e he
    match v with
    | .pyTuple xs =>
      exact hgoErr xs e (by simpa only [FontParts.validateTransformationMatrix] using he)
    | .pyList xs =>
      exact hgoErr xs e (by simpa only [FontParts.validateTransformationMatrix] using he)
    | .pyInt _ | .pyFloat _ | .pyBool _ | .pyStr _ | .pyNone =>
      simp only [FontParts.validateTransformationMatrix, Except.error.injEq] at he
      exact ⟨_, he.symm⟩

/-- Witness for C7: a six-element list of ints is coerced to a tuple of
six floats. -/
theorem validateTransformationMatrix_spec_witness :
    FontParts.validateTransformationMatrix
      (.pyList [.pyInt 1, .pyInt 0, .pyInt 0, .pyInt 1, .pyInt 10, .pyInt 0]) =
    .ok (.pyTuple [.pyFloat 1, .pyFloat 0, .pyFloat 0, .pyFloat 1,
      .pyFloat 10, .pyFloat 0]) := by
  have := (validateTransformationMatrix_spec
    (.pyList [.pyInt 1, .pyInt 0, .pyInt 0, .pyInt 1, .pyInt 10, .pyInt 0])).1
    [.pyInt 1, .pyInt 0, .pyInt 0, .pyInt 1, .pyInt 10, .pyInt 0]
    (Or.inr rfl) rfl (by decide)
  simpa using this

/-- C8: when both normalizers are set, `BaseDict.items()` returns exactly
the list of pairs from `_items()` with the key and value normalizers
applied; when either normalizer is `None`, the call never returns any
list — it fails, because the local variable `returned` is never
assigned. -/
theorem BaseDict_items_spec {K V : Type} (d : FontParts.BaseDict K V)
    (l : List (K × V)) (hraw : d.rawItems = .ok l) :
    (∀ kn vn, d.keyNormalizer = some kn → d.valueNormalizer = some vn →
      d.items = .ok (l.map (fun kv => (kn kv.1, vn kv.2)))) ∧
    ((d.keyNormalizer = none ∨ d.valueNormalizer = none) →
      (∀ res, d.items ≠ .ok res) ∧ d.items = .error .unboundLocalError) := by
  constructor
  · intro kn vn hk hv
    simp only [FontParts.BaseDict.items, hraw, hk, hv]
  · intro hnone
    have : d.items = .error .unboundLocalError := by
      rcases hk : d.keyNormalizer with _ | kn
      · simp only [FontParts.BaseDict.items, hraw, hk]
      · rcases hv : d.valueNormalizer with _ | vn
        · simp only [FontParts.BaseDict.items, hraw, hk, hv]
        · exfalso
          rcases hnone with h | h
          · rw [hk] at h; exact absurd h (by simp)
          · rw [hv] at h; exact absurd h (by simp)
    exact ⟨fun res hres => by rw [this] at hres; exact absurd hres (by simp), this⟩

/-- Witness for C8: a dict whose value normalizer is missing fails with
`UnboundLocalError` even though `_items()` succeeded. -/
theorem BaseDict_items_spec_witness :
    (FontParts.BaseDict.items
      ⟨some id, none, .ok [((1 : ℚ), (2 : ℚ))]⟩ : Except FontParts.PyErr _) =
      .error .unboundLocalError :=
  ((BaseDict_items_spec ⟨some id, none, .ok [((1 : ℚ), (2 : ℚ))]⟩
    [((1 : ℚ), (2 : ℚ))] rfl).2 (Or.inr rfl)).2

/-- C5: reading a `dynamicProperty` named `n` looks up `_get_<n>` on the
instance at access time and returns its result, raising `FontPartsError`
when no such method exists; assigning looks up `_set_<n>` and calls it
with the value, raising `FontPartsError` when no such method exists; and
because lookup is instance-side at access time, a subclass that overrides
only `_set_<n>` has its setter used, with no re-registration. -/
theorem dynamicProperty_spec {S V : Type} (name : String)
    (obj : FontParts.DynInstance S V) :
    (∀ f, FontParts.getattrMRO obj.mro ("_get_" ++ name) = some (.getter f) →
      FontParts.dynamicProperty_get name obj = .ok (f obj.state)) ∧
    (FontParts.getattrMRO obj.mro ("_get_" ++ name) = none →
      ∃ msg, FontParts.dynamicProperty_get name obj = .error (.fontPartsError msg)) ∧
    (∀ f v, FontParts.getattrMRO obj.mro ("_set_" ++ name) = some (.setter f) →
      FontParts.dynamicProperty_set name obj v = .ok (f obj.state v)) ∧
    (∀ v, FontParts.getattrMRO obj.mro ("_set_" ++ name) = none →
      ∃ msg, FontParts.dynamicProperty_set name obj v = .error (.fontPartsError msg)) ∧
    (∀ (derived base : String → Option (FontParts.PyMethod S V)) (st : S)
        (f : S → V → S) (v : V),
      derived ("_set_" ++ name) = some (.setter f) →
      FontParts.dynamicProperty_set name ⟨[derived, base], st⟩ v = .ok (f st v)) := by
  refine ⟨?_, ?_, ?_, ?_, ?_⟩
  · intro f hf
    simp only [FontParts.dynamicProperty_get, hf]
  · intro hf
    simp only [FontParts.dynamicProperty_get, hf]
    exact ⟨_, rfl⟩
  · intro f v hf
    simp only [FontParts.dynamicProperty_set, hf]
  · intro v hf
    simp only [FontParts.dynamicProperty_set, hf]
    exact ⟨_, rfl⟩
  · intro derived base st f v hf
    simp only [FontParts.dynamicProperty_set, FontParts.getattrMRO, hf]

/-- Witness for C5: an object whose derived class defines only the setter
`_set_foo` (the base class defines both accessors) has the derived setter
used on assignment. -/
theorem dynamicProperty_spec_witness :
    FontParts.dynamicProperty_set "foo"
      (FontParts.DynInstance.mk
        [fun s => if s = "_set_foo"
            then some (.setter (fun st v => st * 100 + v)) else none,
         fun s => if s = "_set_foo"
            then some (.setter (fun _st v => v))
          else if s = "_get_foo"
            then some (.getter (fun st => st)) else none]
        (7 : ℚ))
      (3 : ℚ) = .ok 703 := by
  have := (dynamicProperty_spec "foo"
      (FontParts.DynInstance.mk
        [fun s => if s = "_set_foo"
            then some (.setter (fun st v => st * 100 + v)) else none,
         fun s => if s = "_set_foo"
            then some (.setter (fun _st v => v))
          else if s = "_get_foo"
            then some (.getter (fun st => st)) else none]
        (7 : ℚ))).2.2.1 (fun st v => st * 100 + v) (3 : ℚ) rfl
  rw [this]
  norm_num

/-- Counterexample for C4: the claim says that for every `BaseFeatures`
object a second parent assignment violates the guarding assertion; but
after `features.font = f` a second `features.font = f` passes the
assertion (`self._font is None or self._font() == font`) and succeeds. -/
theorem features_second_assignment_allowed :
    FontParts.BaseFeatures_set_font none (some 1) = .ok (some 1) ∧
    FontParts.BaseFeatures_set_font (some 1) (some 1) = .ok (some 1) ∧
    FontParts.BaseFeatures_set_font (some 1) (some 1) ≠
      .error FontParts.PyErr.assertionError := by
  refine ⟨rfl, rfl, ?_⟩
  simp [FontParts.BaseFeatures_set_font]

/-- C4 (amended): the parent slot starts unset and the getter returns
`None` exactly when no parent is stored; for points and segments, once a
parent is stored every further assignment violates the guarding
assertion, while `BaseFeatures` accepts re-assigning the same font and
its assertion fires only when a different font (or `None`) is assigned
over a stored one; and a point or segment with no contour answers `None`
for `glyph`, `layer` and `font`. -/
theorem parent_backreference_spec (c : Nat) (cur newP : Option Nat)
    (hsome : cur = some c) :
    (FontParts.BasePoint_get_contour none = none ∧
      FontParts.BaseSegment_get_contour none = none ∧
      FontParts.BaseFeatures_get_font none = none ∧
      (FontParts.BasePoint_get_contour cur = none ↔ cur = none) ∧
      (FontParts.BaseSegment_get_contour cur = none ↔ cur = none) ∧
      (FontParts.BaseFeatures_get_font cur = none ↔ cur = none)) ∧
    (FontParts.BasePoint_set_contour none newP = .ok newP ∧
      FontParts.BaseSegment_set_contour none newP = .ok newP ∧
      FontParts.BaseFeatures_set_font none newP = .ok newP) ∧
    (FontParts.BasePoint_set_contour cur newP = .error .assertionError ∧
      FontParts.BaseSegment_set_contour cur newP = .error .assertionError) ∧
    (FontParts.BaseFeatures_set_font cur (some c) = .ok (some c) ∧
      (newP ≠ some c →
        FontParts.BaseFeatures_set_font cur newP = .error .assertionError)) ∧
    (∀ env : Nat → Option Nat,
      FontParts.BasePoint_get_glyph none env = none ∧
      FontParts.BasePoint_get_layer none env = none ∧
      FontParts.BasePoint_get_font none env = none ∧
      FontParts.BaseSegment_get_glyph none env = none ∧
      FontParts.BaseSegment_get_layer none env = none ∧
      FontParts.BaseSegment_get_font none env = none) := by
  subst hsome
  refine ⟨⟨rfl, rfl, rfl, by simp [FontParts.BasePoint_get_contour],
      by simp [FontParts.BaseSegment_get_contour],
      by simp [FontParts.BaseFeatures_get_font]⟩,
    ⟨rfl, rfl, rfl⟩, ⟨rfl, rfl⟩, ⟨?_, ?_⟩, fun env => ⟨rfl, rfl, rfl, rfl, rfl, rfl⟩⟩
  · simp [FontParts.BaseFeatures_set_font]
  · intro hne
    simp only [FontParts.BaseFeatures_set_font]
    rw [if_neg hne]

/-- Witness for C4 (amended): instantiated with a stored parent `5` and
an attempted new parent `7`. -/
theorem parent_backreference_spec_witness :
    FontParts.BaseFeatures_set_font (some 5) (some 7) = .error .assertionError :=
  (parent_backreference_spec 5 (some 5) (some 7) rfl).2.2.2.1.2 (by decide)

/-- Counterexample for C1: the claim's formula `M·p + (o − M·o)` and its
fixed-point consequence fail at the origin `(0, 0)` with a translating
matrix.  With `M = (1, 0, 0, 1, 10, 0)`, `p = o = (0, 0)`:
the code moves the point to `(10, 0)`, while the claimed formula yields
`M·p + (o − M·o) = (10, 0) + (−10, 0) = (0, 0)`, and the origin is not a
fixed point of the resulting map. -/
theorem transformBy_origin_not_fixed :
    FontParts.point_transformBy ((0 : ℚ), (0 : ℚ))
        ⟨1, 0, 0, 1, 10, 0⟩ (some ((0 : ℚ), (0 : ℚ))) = ((10 : ℚ), (0 : ℚ)) ∧
    ((FontParts.transformPoint ⟨1, 0, 0, 1, 10, 0⟩ ((0 : ℚ), (0 : ℚ))).1 +
        ((0 : ℚ) - (FontParts.transformPoint ⟨1, 0, 0, 1, 10, 0⟩ ((0 : ℚ), (0 : ℚ))).1),
      (FontParts.transformPoint ⟨1, 0, 0, 1, 10, 0⟩ ((0 : ℚ), (0 : ℚ))).2 +
        ((0 : ℚ) - (FontParts.transformPoint ⟨1, 0, 0, 1, 10, 0⟩ ((0 : ℚ), (0 : ℚ))).2)) =
      ((0 : ℚ), (0 : ℚ)) ∧
    FontParts.point_transformBy ((0 : ℚ), (0 : ℚ))
        ⟨1, 0, 0, 1, 10, 0⟩ (some ((0 : ℚ), (0 : ℚ))) ≠ ((0 : ℚ), (0 : ℚ)) := by
  refine ⟨?_, ?_, ?_⟩ <;>
    norm_num [FontParts.point_transformBy, FontParts.BasePoint_transformBy_impl,
      FontParts.transformPoint]

/-- C1 (amended): for every point `p`, matrix `M` and origin `o`,
`transformBy(M, origin=o)` with `o ≠ (0, 0)` sets the point's coordinates
to `M·p + (o − M·o)` — so such an origin is a fixed point of the
resulting map — while with `o = (0, 0)` or `o = None` the computed
`originOffset` is `(0, 0)` and the coordinates become exactly `M·p`. -/
theorem transformBy_spec (p o : ℚ × ℚ) (m : FontParts.Matrix6)
    (ho : o ≠ ((0 : ℚ), (0 : ℚ))) :
    (FontParts.point_transformBy p m (some o) =
      ((FontParts.transformPoint m p).1 + (o.1 - (FontParts.transformPoint m o).1),
       (FontParts.transformPoint m p).2 + (o.2 - (FontParts.transformPoint m o).2))) ∧
    FontParts.point_transformBy o m (some o) = o ∧
    FontParts.point_transformBy p m none = FontParts.transformPoint m p ∧
    FontParts.point_transformBy p m (some ((0 : ℚ), (0 : ℚ))) =
      FontParts.transformPoint m p := by
  have himpl : ∀ (pt : ℚ × ℚ) (off : ℚ × ℚ),
      FontParts.BasePoint_transformBy_impl pt m off =
        ((FontParts.transformPoint m pt).1 + off.1,
         (FontParts.transformPoint m pt).2 + off.2) := by
    intro pt off
    simp only [FontParts.BasePoint_transformBy_impl]
    by_cases hoff : off = ((0 : ℚ), (0 : ℚ))
    · rw [if_neg (by simpa using hoff)]
      rw [hoff]
      simp
    · rw [if_pos hoff]
  refine ⟨?_, ?_, ?_, ?_⟩
  · simp only [FontParts.point_transformBy, Option.getD_some]
    rw [if_neg ho, himpl]
  · simp only [FontParts.point_transformBy, Option.getD_some]
    rw [if_neg ho, himpl]
    obtain ⟨ox, oy⟩ := o
    simp only [FontParts.transformPoint, Prod.mk.injEq]
    constructor <;> ring
  · simp [FontParts.point_transformBy, FontParts.BasePoint_transformBy_impl]
  · simp [FontParts.point_transformBy, FontParts.BasePoint_transformBy_impl]

/-- Witness for C1 (amended): scaling by 2 about the origin `(3, 4)`
keeps `(3, 4)` in place and sends `(1, 1)` to `2·(1,1) + ((3,4) − (6,8))
= (-1, -2)`. -/
theorem transformBy_spec_witness :
    FontParts.point_transformBy ((1 : ℚ), (1 : ℚ)) ⟨2, 0, 0, 2, 0, 0⟩
        (some ((3 : ℚ), (4 : ℚ))) = ((-1 : ℚ), (-2 : ℚ)) ∧
    FontParts.point_transformBy ((3 : ℚ), (4 : ℚ)) ⟨2, 0, 0, 2, 0, 0⟩
        (some ((3 : ℚ), (4 : ℚ))) = ((3 : ℚ), (4 : ℚ)) := by
  have h := transformBy_spec ((1 : ℚ), (1 : ℚ)) ((3 : ℚ), (4 : ℚ))
    ⟨2, 0, 0, 2, 0, 0⟩ (by norm_num)
  have h2 := transformBy_spec ((3 : ℚ), (4 : ℚ)) ((3 : ℚ), (4 : ℚ))
    ⟨2, 0, 0, 2, 0, 0⟩ (by norm_num)
  refine ⟨?_, h2.2.1⟩
  rw [h.1]
  norm_num [FontParts.transformPoint]

/-! Helper lemmas about the layer model. -/

theorem normalizeLayerName_ok_eq {name x : String}
    (h : FontParts.normalizeLayerName name = .ok x) : x = name := by
  simp only [FontParts.normalizeLayerName] at h
  by_cases hl : name.length < 1
  · rw [if_pos hl] at h; exact absurd h (by simp)
  · rw [if_neg hl] at h
    simpa using h.symm

theorem normalizeColor_ok_eq {c x : FontParts.PyColor}
    (h : FontParts.normalizeColor c = .ok x) : x = c := by
  simp only [FontParts.normalizeColor] at h
  split at h
  · simpa using h.symm
  · exact absurd h (by simp)

theorem contains_eq_true_iff (ls : List String) (a : String) :
    ls.contains a = true ↔ a ∈ ls := by
  induction ls with
  | nil => simp
  | cons b rest ih => simp

theorem map_name_setLayerColorIn (ls : List FontParts.RLayer) (name : String)
    (col : Option FontParts.PyColor) :
    (FontParts.setLayerColorIn ls name col).map FontParts.RLayer.name =
      ls.map FontParts.RLayer.name := by
  induction ls with
  | nil => rfl
  | cons l rest ih =>
    simp only [FontParts.setLayerColorIn]
    by_cases h : l.name = name
    · rw [if_pos h]; simp
    · rw [if_neg h]; simp [ih]

theorem find?_setLayerColorIn (ls : List FontParts.RLayer) (name : String)
    (col : Option FontParts.PyColor) :
    (FontParts.setLayerColorIn ls name col).find? (fun l => l.name == name) =
      (ls.find? (fun l => l.name == name)).map (fun l => { l with color := col }) := by
  induction ls with
  | nil => rfl
  | cons l rest ih =>
    simp only [FontParts.setLayerColorIn]
    by_cases h : l.name = name
    · rw [if_pos h]
      rw [List.find?_cons_of_pos _ (by simpa using h),
        List.find?_cons_of_pos _ (by simpa using h)]
      rfl
    · rw [if_neg h]
      rw [List.find?_cons_of_neg _ (by simpa using h),
        List.find?_cons_of_neg _ (by simpa using h)]
      exact ih

theorem setLayerColorIn_eq_self (ls : List FontParts.RLayer) (name : String)
    (col : Option FontParts.PyColor) (l : FontParts.RLayer)
    (hfind : ls.find? (fun l => l.name == name) = some l) (hcol : l.color = col) :
    FontParts.setLayerColorIn ls name col = ls := by
  induction ls with
  | nil => simp at hfind
  | cons a rest ih =>
    simp only [FontParts.setLayerColorIn]
    by_cases h : a.name = name
    · rw [if_pos h]
      rw [List.find?_cons_of_pos _ (by simpa using h)] at hfind
      have ha : a = l := by injection hfind
      subst ha
      have : ({ a with color := col } : FontParts.RLayer) = a := by
        cases a
        simp only at hcol
        subst hcol
        rfl
      rw [this]
    · rw [if_neg h]
      rw [List.find?_cons_of_neg _ (by simpa using h)] at hfind
      rw [ih hfind]

theorem find?_name_eq_none (ls : List FontParts.RLayer) (name : String)
    (h : name ∉ ls.map FontParts.RLayer.name) :
    ls.find? (fun l => l.name == name) = none := by
  induction ls with
  | nil => rfl
  | cons a rest ih =>
    simp only [List.map_cons, List.mem_cons, not_or] at h
    rw [List.find?_cons_of_neg _ (by simpa using fun he => h.1 he.symm)]
    exact ih h.2

theorem exists_find?_of_mem_names (ls : List FontParts.RLayer) (name : String)
    (h : name ∈ ls.map FontParts.RLayer.name) :
    ∃ l, ls.find? (fun l => l.name == name) = some l ∧ l.name = name := by
  induction ls with
  | nil => simp at h
  | cons a rest ih =>
    by_cases ha : a.name = name
    · exact ⟨a, List.find?_cons_of_pos _ (by simpa using ha), ha⟩
    · simp only [List.map_cons, List.mem_cons] at h
      rcases h with h | h
      · exact absurd h.symm ha
      · obtain ⟨l, hl, hln⟩ := ih h
        exact ⟨l, by rw [List.find?_cons_of_neg _ (by simpa using ha)]; exact hl, hln⟩

theorem find?_append_of_none {α : Type} (p : α → Bool) (l1 l2 : List α)
    (h : l1.find? p = none) : (l1 ++ l2).find? p = l2.find? p := by
  induction l1 with
  | nil => rfl
  | cons a rest ih =>
    cases hp : p a with
    | true => rw [List.find?_cons_of_pos _ hp] at h; exact absurd h (by simp)
    | false =>
      rw [List.find?_cons_of_neg _ (by simp [hp])] at h
      rw [List.cons_append, List.find?_cons_of_neg _ (by simp [hp])]
      exact ih h

/-- Calling `newLayer` a second time with the same name and color returns
the same layer and leaves the font unchanged, whichever branch the first
call took. -/
theorem newLayer_idem (f : FontParts.RFont) (name : String)
    (col : Option FontParts.PyColor) (l1 : FontParts.RLayer) (f1 : FontParts.RFont)
    (b1 : Bool) (hok : FontParts.newLayer f name col = .ok (l1, f1, b1)) :
    FontParts.newLayer f1 name col = .ok (l1, f1, false) := by
  cases hn : FontParts.normalizeLayerName name with
  | error e =>
    simp only [FontParts.newLayer, hn] at hok
    exact absurd hok (by simp)
  | ok name' =>
    have hname' := normalizeLayerName_ok_eq hn
    subst name'
    simp only [FontParts.newLayer, hn] at hok ⊢
    cases hc : f.layerOrder.contains name with
    | true =>
      rw [if_pos hc] at hok
      have hmem : name ∈ f.layers.map FontParts.RLayer.name :=
        (contains_eq_true_iff _ _).mp hc
      obtain ⟨l, hfind, hlname⟩ := exists_find?_of_mem_names f.layers name hmem
      simp only [FontParts.getLayer, hn, hfind] at hok
      cases col with
      | none =>
        simp only [Except.ok.injEq, Prod.mk.injEq] at hok
        obtain ⟨h1, h2, h3⟩ := hok
        subst h1
        subst h2
        rw [if_pos hc]
        simp only [FontParts.getLayer, hn, hfind]
      | some c =>
        simp only [Except.ok.injEq, Prod.mk.injEq] at hok
        obtain ⟨h1, h2, h3⟩ := hok
        subst h1
        subst h2
        have hord : (FontParts.RFont.mk
            (FontParts.setLayerColorIn f.layers name (some c))).layerOrder =
            f.layerOrder := by
          simp only [FontParts.RFont.layerOrder]
          exact map_name_setLayerColorIn f.layers name (some c)
        rw [hord, if_pos hc]
        have hfind2 : (FontParts.setLayerColorIn f.layers name (some c)).find?
            (fun l => l.name == name) = some { l with color := some c } := by
          rw [find?_setLayerColorIn, hfind]
          rfl
        simp only [FontParts.getLayer, hn, hfind2]
        have hsame : FontParts.setLayerColorIn
            (FontParts.setLayerColorIn f.layers name (some c)) name (some c) =
            FontParts.setLayerColorIn f.layers name (some c) :=
          setLayerColorIn_eq_self _ name (some c) { l with color := some c } hfind2 rfl
        rw [hsame]
    | false =>
      rw [if_neg (by rw [hc]; simp)] at hok
      have hnotmem : name ∉ f.layers.map FontParts.RLayer.name := by
        intro hmem
        have hcc := (contains_eq_true_iff f.layerOrder name).mpr hmem
        rw [hc] at hcc
        exact absurd hcc (by simp)
      have hfnone := find?_name_eq_none f.layers name hnotmem
      cases col with
      | none =>
        simp only [Except.ok.injEq, Prod.mk.injEq] at hok
        obtain ⟨h1, h2, h3⟩ := hok
        subst h1
        subst h2
        have hord : (FontParts.RFont.mk
            (f.layers ++ [⟨name, none⟩])).layerOrder.contains name = true := by
          apply (contains_eq_true_iff _ _).mpr
          simp [FontParts.RFont.layerOrder]
        rw [if_pos hord]
        have hfind2 : (f.layers ++ [(⟨name, none⟩ : FontParts.RLayer)]).find?
            (fun l => l.name == name) = some ⟨name, none⟩ := by
          rw [find?_append_of_none _ _ _ hfnone]
          exact List.find?_cons_of_pos _ (by simp)
        simp only [FontParts.getLayer, hn, hfind2]
      | some c =>
        cases hnc : FontParts.normalizeColor c with
        | error e =>
          simp only [hnc] at hok
          exact absurd hok (by simp)
        | ok c2 =>
          have hc2 := normalizeColor_ok_eq hnc
          subst c2
          simp only [hnc, Except.ok.injEq, Prod.mk.injEq] at hok
          obtain ⟨h1, h2, h3⟩ := hok
          subst h1
          subst h2
          have hord : (FontParts.RFont.mk
              (f.layers ++ [⟨name, some c⟩])).layerOrder.contains name = true := by
            apply (contains_eq_true_iff _ _).mpr
            simp [FontParts.RFont.layerOrder]
          rw [if_pos hord]
          have hfind2 : (f.layers ++ [(⟨name, some c⟩ : FontParts.RLayer)]).find?
              (fun l => l.name == name) = some ⟨name, some c⟩ := by
            rw [find?_append_of_none _ _ _ hfnone]
            exact List.find?_cons_of_pos _ (by simp)
          simp only [FontParts.getLayer, hn, hfind2]
          have hsame : FontParts.setLayerColorIn
              (f.layers ++ [⟨name, some c⟩]) name (some c) =
              f.layers ++ [⟨name, some c⟩] :=
            setLayerColorIn_eq_self _ name (some c) ⟨name, some c⟩ hfind2 rfl
          rw [hsame]

/-- C9: for a name (normalizable, i.e. nonempty) already in
`f.layerOrder`, `newLayer(name, color)` never calls the backend hook
`_newLayer` (the `Bool` component is `false`), returns the layer obtained
via `getLayer(name)` — with `layer.color = color` assigned exactly when
`color` is not `None` — and keeps the layer order unchanged; and calling
`newLayer` twice with the same name and color yields the same layer and
font (idempotence). -/
theorem newLayer_existing_spec (f : FontParts.RFont) (name : String)
    (hname : name ≠ "") (hmem : name ∈ f.layerOrder) :
    (∃ l, FontParts.getLayer f name = .ok l ∧
      FontParts.newLayer f name none = .ok (l, f, false) ∧
      ∀ col, FontParts.newLayer f name (some col) =
          .ok ({ l with color := some col },
            FontParts.RFont.mk (FontParts.setLayerColorIn f.layers name (some col)),
            false) ∧
        (FontParts.RFont.mk
          (FontParts.setLayerColorIn f.layers name (some col))).layerOrder =
          f.layerOrder) ∧
    (∀ col l1 f1 b1, FontParts.newLayer f name col = .ok (l1, f1, b1) →
      FontParts.newLayer f1 name col = .ok (l1, f1, false)) := by
  have hlen : ¬(name.length < 1) := by
    intro hlt
    apply hname
    have h0 : name.length = 0 := Nat.lt_one_iff.mp hlt
    cases name with
    | mk data =>
      cases data with
      | nil => rfl
      | cons a as => simp [String.length] at h0
  have hn : FontParts.normalizeLayerName name = .ok name := by
    simp only [FontParts.normalizeLayerName]
    rw [if_neg hlen]
  obtain ⟨l, hfind, hlname⟩ := exists_find?_of_mem_names f.layers name hmem
  have hget : FontParts.getLayer f name = .ok l := by
    simp only [FontParts.getLayer, hn, hfind]
  have hc : f.layerOrder.contains name = true := (contains_eq_true_iff _ _).mpr hmem
  refine ⟨⟨l, hget, ?_, ?_⟩, fun col l1 f1 b1 h => newLayer_idem f name col l1 f1 b1 h⟩
  · simp only [FontParts.newLayer, hn]
    rw [if_pos hc]
    simp only [FontParts.getLayer, hn, hfind]
  · intro col
    constructor
    · simp only [FontParts.newLayer, hn]
      rw [if_pos hc]
      simp only [FontParts.getLayer, hn, hfind]
    · simp only [FontParts.RFont.layerOrder]
      exact map_name_setLayerColorIn f.layers name (some col)

/-- Witness for C9: a font already holding a layer "background" returns
that layer unchanged from `newLayer("background", None)` without creating
a layer. -/
theorem newLayer_existing_spec_witness :
    FontParts.newLayer ⟨[⟨"background", none⟩]⟩ "background" none =
      .ok (⟨"background", none⟩, ⟨[⟨"background", none⟩]⟩, false) := by
  obtain ⟨⟨l, hget, hnone, _⟩, _⟩ :=
    newLayer_existing_spec ⟨[⟨"background", none⟩]⟩ "background"
      (by decide) (by simp [FontParts.RFont.layerOrder])
  have hval : FontParts.getLayer ⟨[⟨"background", none⟩]⟩ "background" =
      .ok ⟨"background", none⟩ := by rfl
  rw [hval] at hget
  have hl : (⟨"background", none⟩ : FontParts.RLayer) = l := by
    injection hget
  rw [← hl] at hnone
  exact hnone

/-! Helper lemmas for the segment model. -/

theorem getLast?_mem {α : Type} {l : List α} {a : α} (h : l.getLast? = some a) :
    a ∈ l := by
  cases l with
  | nil => simp at h
  | cons b bs =>
    have hg := List.getLast?_eq_getLast (b :: bs) (by simp)
    rw [hg] at h
    rw [← Option.some.inj h]
    exact List.getLast_mem _

theorem segmentsOf_ne_nil (c : List FontParts.CPoint) (hc : c ≠ [])
    (hclosed : ∀ p, c.getLast? = some p → p.ptype ≠ .offcurve) :
    FontParts.segmentsOf c ≠ [] := by
  induction c with
  | nil => exact absurd rfl hc
  | cons p ps ih =>
    simp only [FontParts.segmentsOf]
    by_cases hp : p.ptype = .offcurve
    · rw [if_pos hp]
      cases hps : ps with
      | nil =>
        subst hps
        exact absurd hp (hclosed p (by simp))
      | cons q qs =>
        subst hps
        have htail : ∀ r, (q :: qs).getLast? = some r → r.ptype ≠ .offcurve := by
          intro r hr
          apply hclosed
          rw [List.getLast?_cons_cons]
          exact hr
        have := ih (by simp) htail
        cases hseg : FontParts.segmentsOf (q :: qs) with
        | nil => exact absurd hseg this
        | cons s ss => simp
    · rw [if_neg hp]
      simp

theorem flatten_segmentsOf (c : List FontParts.CPoint)
    (hclosed : ∀ p, c.getLast? = some p → p.ptype ≠ .offcurve) :
    (FontParts.segmentsOf c).flatten = c := by
  induction c with
  | nil => rfl
  | cons p ps ih =>
    simp only [FontParts.segmentsOf]
    by_cases hp : p.ptype = .offcurve
    · rw [if_pos hp]
      cases hps : ps with
      | nil =>
        subst hps
        exact absurd hp (hclosed p (by simp))
      | cons q qs =>
        subst hps
        have htail : ∀ r, (q :: qs).getLast? = some r → r.ptype ≠ .offcurve := by
          intro r hr
          apply hclosed
          rw [List.getLast?_cons_cons]
          exact hr
        have hne := segmentsOf_ne_nil (q :: qs) (by simp) htail
        cases hseg : FontParts.segmentsOf (q :: qs) with
        | nil => exact absurd hseg hne
        | cons s ss =>
          have hflat := ih htail
          rw [hseg] at hflat
          simp only [List.flatten_cons] at hflat ⊢
          rw [List.cons_append, hflat]
    · rw [if_neg hp]
      cases hps : ps with
      | nil =>
        subst hps
        simp [FontParts.segmentsOf]
      | cons q qs =>
        subst hps
        have htail : ∀ r, (q :: qs).getLast? = some r → r.ptype ≠ .offcurve := by
          intro r hr
          apply hclosed
          rw [List.getLast?_cons_cons]
          exact hr
        have hflat := ih htail
        simp only [List.flatten_cons]
        rw [List.singleton_append, hflat]

theorem ne_nil_of_mem_segmentsOf {c : List FontParts.CPoint}
    {s : List FontParts.CPoint} (hs : s ∈ FontParts.segmentsOf c) : s ≠ [] := by
  induction c generalizing s with
  | nil => simp [FontParts.segmentsOf] at hs
  | cons p ps ih =>
    simp only [FontParts.segmentsOf] at hs
    by_cases hp : p.ptype = .offcurve
    · rw [if_pos hp] at hs
      cases hseg : FontParts.segmentsOf ps with
      | nil => rw [hseg] at hs; simp at hs
      | cons t ts =>
        rw [hseg] at hs
        rcases List.mem_cons.mp hs with h | h
        · subst h; simp
        · exact ih (by rw [hseg]; exact List.mem_cons_of_mem _ h)
    · rw [if_neg hp] at hs
      rcases List.mem_cons.mp hs with h | h
      · subst h; simp
      · exact ih h

theorem findIdx_pid_get? (c : List FontParts.CPoint) (pt : FontParts.CPoint)
    (hmem : pt ∈ c) (hnd : (c.map FontParts.CPoint.pid).Nodup) :
    c.get? (c.findIdx (fun q => q.pid == pt.pid)) = some pt := by
  induction c with
  | nil => simp at hmem
  | cons a rest ih =>
    simp only [List.map_cons, List.nodup_cons] at hnd
    by_cases ha : a.pid = pt.pid
    · have hae : a = pt := by
        rcases List.mem_cons.mp hmem with h | h
        · exact h.symm
        · exact absurd (ha ▸ (List.mem_map.mpr ⟨pt, h, rfl⟩)) hnd.1
      rw [List.findIdx_cons]
      have : (a.pid == pt.pid) = true := by simpa using ha
      rw [this]
      simpa using hae
    · rw [List.findIdx_cons]
      have : (a.pid == pt.pid) = false := by simpa using ha
      rw [this]
      have hpt : pt ∈ rest := by
        rcases List.mem_cons.mp hmem with h | h
        · exact absurd (h ▸ rfl) ha
        · exact h
      simpa using ih hpt hnd.2

theorem setPointType_eq_self (c : List FontParts.CPoint) (pidv : Nat)
    (t : FontParts.PointType) (h : pidv ∉ c.map FontParts.CPoint.pid) :
    FontParts.setPointType c pidv t = c := by
  induction c with
  | nil => rfl
  | cons a rest ih =>
    simp only [List.map_cons, List.mem_cons, not_or] at h
    simp only [FontParts.setPointType, List.map_cons]
    rw [if_neg (fun he => h.1 he.symm)]
    have := ih h.2
    simp only [FontParts.setPointType] at this
    rw [this]

theorem setPointType_decomp (l1 l2 : List FontParts.CPoint)
    (pt : FontParts.CPoint) (t : FontParts.PointType)
    (h1 : pt.pid ∉ l1.map FontParts.CPoint.pid)
    (h2 : pt.pid ∉ l2.map FontParts.CPoint.pid) :
    FontParts.setPointType (l1 ++ pt :: l2) pt.pid t =
      l1 ++ { pt with ptype := t } :: l2 := by
  simp only [FontParts.setPointType, List.map_append, List.map_cons, if_pos rfl]
  have e1 := setPointType_eq_self l1 pt.pid t h1
  have e2 := setPointType_eq_self l2 pt.pid t h2
  simp only [FontParts.setPointType] at e1 e2
  rw [e1, e2]
  simp

theorem eraseP_pid_eq_filter (c : List FontParts.CPoint) (p : Nat)
    (hnd : (c.map FontParts.CPoint.pid).Nodup) :
    c.eraseP (fun q => q.pid == p) = c.filter (fun q => !(q.pid == p)) := by
  induction c with
  | nil => rfl
  | cons a rest ih =>
    simp only [List.map_cons, List.nodup_cons] at hnd
    by_cases ha : a.pid = p
    · rw [List.eraseP_cons_of_pos (by simpa using ha)]
      rw [List.filter_cons_of_neg (by simpa using ha)]
      have : ∀ q ∈ rest, (!(q.pid == p)) = true := by
        intro q hq
        simp only [Bool.not_eq_true', beq_eq_false_iff_ne, ne_eq]
        intro he
        exact hnd.1 (List.mem_map.mpr ⟨q, hq, (he.trans ha.symm)⟩)
      rw [List.filter_eq_self.mpr this]
    · rw [List.eraseP_cons_of_neg (by simpa using ha)]
      rw [List.filter_cons_of_pos (by simpa using ha)]
      rw [ih hnd.2]

theorem foldl_removePoint_eq_filter (rs c : List FontParts.CPoint)
    (hnd : (c.map FontParts.CPoint.pid).Nodup) :
    rs.foldl (fun acc q => FontParts.removePoint acc q.pid) c =
      c.filter (fun q => decide (q.pid ∉ rs.map FontParts.CPoint.pid)) := by
  induction rs generalizing c with
  | nil =>
    simp only [List.foldl_nil, List.map_nil]
    rw [List.filter_eq_self.mpr]
    intro a _
    simp
  | cons r rest ih =>
    simp only [List.foldl_cons]
    have hr : FontParts.removePoint c r.pid = c.filter (fun q => !(q.pid == r.pid)) :=
      eraseP_pid_eq_filter c r.pid hnd
    rw [hr]
    have hnd2 : ((c.filter (fun q => !(q.pid == r.pid))).map FontParts.CPoint.pid).Nodup := by
      apply List.Nodup.sublist _ hnd
      exact List.Sublist.map _ (List.filter_sublist c)
    rw [ih _ hnd2, List.filter_filter]
    apply List.filter_congr
    intro q _
    by_cases h1 : q.pid = r.pid <;>
      by_cases h2 : q.pid ∈ rest.map FontParts.CPoint.pid <;>
      simp [h1, h2]

theorem insertIdx_eq_take_drop {α : Type} (l : List α) (j : Nat) (a : α)
    (hj : j ≤ l.length) :
    l.insertIdx j a = l.take j ++ a :: l.drop j := by
  induction j generalizing l with
  | zero => simp
  | succ n ih =>
    cases l with
    | nil => simp at hj
    | cons b bs =>
      simp only [List.insertIdx_succ_cons, List.take_succ_cons, List.drop_succ_cons,
        List.cons_append]
      rw [ih bs (by simpa using hj)]

theorem get?_append_length {α : Type} (l1 l2 : List α) (a : α) :
    (l1 ++ a :: l2).get? l1.length = some a := by
  induction l1 with
  | nil => rfl
  | cons b bs ih => simpa using ih

theorem decomp_of_get? {α : Type} (l : List α) (j : Nat) (a : α)
    (h : l.get? j = some a) :
    l = l.take j ++ a :: l.drop (j + 1) := by
  obtain ⟨hlt, hget⟩ := List.get?_eq_some.mp h
  conv_lhs => rw [← List.take_append_drop j l]
  rw [List.drop_eq_get_cons hlt, hget]

theorem findIdx_blocks (L : List (List FontParts.CPoint))
    (hne : ∀ s ∈ L, s ≠ [])
    (hnd : (L.flatten.map FontParts.CPoint.pid).Nodup) :
    ∀ (k : Nat) (hk : k < L.length),
      L.findIdx (fun s => s.map FontParts.CPoint.pid ==
        (L.get ⟨k, hk⟩).map FontParts.CPoint.pid) = k := by
  induction L with
  | nil =>
    intro k hk
    simp at hk
  | cons s rest ih =>
    intro k hk
    cases k with
    | zero =>
      rw [List.findIdx_cons]
      have htrue : (s.map FontParts.CPoint.pid ==
          ((s :: rest).get ⟨0, hk⟩).map FontParts.CPoint.pid) = true := by
        simp [List.get]
      rw [htrue]
      rfl
    | succ k' =>
      have hk' : k' < rest.length := by simpa using hk
      have hdisj : List.Disjoint (s.map FontParts.CPoint.pid)
          ((rest.flatten).map FontParts.CPoint.pid) := by
        apply List.disjoint_of_nodup_append
        simpa [List.map_append] using hnd
      have hfalse : (s.map FontParts.CPoint.pid ==
          ((s :: rest).get ⟨k' + 1, hk⟩).map FontParts.CPoint.pid) = false := by
        have hgtail : (s :: rest).get ⟨k' + 1, hk⟩ = rest.get ⟨k', hk'⟩ := rfl
        rw [hgtail]
        by_contra hcon
        have heq : s.map FontParts.CPoint.pid =
            (rest.get ⟨k', hk'⟩).map FontParts.CPoint.pid := by
          have := Bool.not_eq_false _ |>.mp hcon
          exact eq_of_beq this
        have hsne := hne s (List.mem_cons_self _ _)
        cases hs : s with
        | nil => exact hsne hs
        | cons hd tl =>
          have hmem1 : hd.pid ∈ s.map FontParts.CPoint.pid := by
            rw [hs]; simp
          have hmem2 : hd.pid ∈ (rest.flatten).map FontParts.CPoint.pid := by
            rw [heq] at hmem1
            have hsubl : (rest.get ⟨k', hk'⟩).Sublist rest.flatten :=
              List.sublist_flatten_of_mem (List.get_mem rest k' hk')
            exact (hsubl.map FontParts.CPoint.pid).subset hmem1
          exact hdisj hmem1 hmem2
      rw [List.findIdx_cons, hfalse]
      have hnerest : ∀ t ∈ rest, t ≠ [] := fun t ht =>
        hne t (List.mem_cons_of_mem _ ht)
      have hndrest : ((rest.flatten).map FontParts.CPoint.pid).Nodup := by
        apply List.Nodup.sublist _ hnd
        apply List.Sublist.map
        simp only [List.flatten_cons]
        exact List.sublist_append_right _ _
      have := ih hnerest hndrest k' hk'
      simpa using this

theorem not_mem_map_of_nodup_decomp {α β : Type} (f : α → β) (l1 l2 : List α)
    (x : α) (h : ((l1 ++ x :: l2).map f).Nodup) :
    f x ∉ l1.map f ∧ f x ∉ l2.map f := by
  rw [List.map_append, List.map_cons] at h
  have hdisj := List.disjoint_of_nodup_append h
  constructor
  · intro hmem
    exact hdisj hmem (by simp)
  · have h2 := (List.nodup_append.mp h).2.1
    exact (List.nodup_cons.mp h2).1

theorem getD_append_cons {α : Type} (l1 l2 : List α) (a d : α) (j : Nat)
    (hl : l1.length = j) : (l1 ++ a :: l2).getD j d = a := by
  subst hl
  rw [List.getD_eq_get?, get?_append_length]
  rfl

/-- C3: for a segment of a contour (the `k`-th segment of the contour's
point list, points having pairwise distinct identities and fresh
identities for inserted points), `_set_type` behaves as claimed:
setting the current type changes nothing; setting a differing type with
no parent contour raises `FontPartsError`; a `move`/`line` ↔
`move`/`line` change re-types only the on-curve point; a change to a
non-curve type removes every off-curve point of the segment from the
contour and re-types the on-curve point; and a `move`/`line` →
`curve`/`qcurve` change inserts two off-curve points immediately before
the on-curve point — the first at the previous segment's on-curve
coordinates (`segments[i-1]`, wrapping to the last segment when the
segment is first), the second at this segment's on-curve coordinates —
makes the segment's point tuple `(off1, off2, onCurve)` and re-types the
on-curve point. -/
theorem segment_set_type_spec
    (c selfPts : List FontParts.CPoint) (k f1 f2 : Nat)
    (hclosed : ∀ p, c.getLast? = some p → p.ptype ≠ .offcurve)
    (hnd : (c.map FontParts.CPoint.pid).Nodup)
    (hk : k < (FontParts.segmentsOf c).length)
    (hsel : selfPts = (FontParts.segmentsOf c).get ⟨k, hk⟩)
    (hf1 : f1 ∉ c.map FontParts.CPoint.pid)
    (hf2 : f2 ∉ c.map FontParts.CPoint.pid) :
    ∃ onPt j,
      selfPts.getLast? = some onPt ∧
      c.get? j = some onPt ∧
      (FontParts.set_type selfPts (some c) onPt.ptype f1 f2 =
        .ok (selfPts, some c)) ∧
      (FontParts.set_type selfPts none onPt.ptype f1 f2 = .ok (selfPts, none)) ∧
      (∀ t, t ≠ onPt.ptype →
        ∃ msg, FontParts.set_type selfPts none t f1 f2 =
          .error (.fontPartsError msg)) ∧
      (∀ t, t ≠ onPt.ptype → (t = .move ∨ t = .line) →
          (onPt.ptype = .move ∨ onPt.ptype = .line) →
        FontParts.set_type selfPts (some c) t f1 f2 =
          .ok (selfPts.dropLast ++ [{ onPt with ptype := t }],
               some (c.take j ++ { onPt with ptype := t } :: c.drop (j + 1)))) ∧
      (∀ t, t ≠ onPt.ptype →
          ¬ ((t = .move ∨ t = .line) ∧ (onPt.ptype = .move ∨ onPt.ptype = .line)) →
          t ≠ .curve → t ≠ .qcurve →
        FontParts.set_type selfPts (some c) t f1 f2 =
          .ok (selfPts.dropLast ++ [{ onPt with ptype := t }],
               some ((c.take j).filter
                   (fun q => decide (q.pid ∉ selfPts.dropLast.map FontParts.CPoint.pid)) ++
                 { onPt with ptype := t } ::
                 (c.drop (j + 1)).filter
                   (fun q => decide (q.pid ∉ selfPts.dropLast.map FontParts.CPoint.pid))))) ∧
      (∀ t, (t = .curve ∨ t = .qcurve) → (onPt.ptype = .move ∨ onPt.ptype = .line) →
        ∃ prevSeg prev,
          (if k = 0 then (FontParts.segmentsOf c).getLast?
            else (FontParts.segmentsOf c).get? (k - 1)) = some prevSeg ∧
          prevSeg.getLast? = some prev ∧
          FontParts.set_type selfPts (some c) t f1 f2 =
            .ok ([⟨f1, prev.x, prev.y, .offcurve⟩,
                  ⟨f2, onPt.x, onPt.y, .offcurve⟩,
                  { onPt with ptype := t }],
                 some (c.take j ++
                   ⟨f1, prev.x, prev.y, .offcurve⟩ ::
                   ⟨f2, onPt.x, onPt.y, .offcurve⟩ ::
                   { onPt with ptype := t } :: c.drop (j + 1)))) := by
  -- shared facts
  have hselfmem : selfPts ∈ FontParts.segmentsOf c := by
    rw [hsel]
    exact List.get_mem _ k hk
  have hselfne : selfPts ≠ [] := ne_nil_of_mem_segmentsOf hselfmem
  have hflat : (FontParts.segmentsOf c).flatten = c := flatten_segmentsOf c hclosed
  have honlast : selfPts.getLast? = some (selfPts.getLast hselfne) :=
    List.getLast?_eq_getLast selfPts hselfne
  set onPt := selfPts.getLast hselfne with honPt
  have hselfdecomp : selfPts.dropLast ++ [onPt] = selfPts :=
    List.dropLast_append_getLast hselfne
  have hselfsub : selfPts.Sublist c := by
    rw [← hflat]
    exact List.sublist_flatten_of_mem hselfmem
  have hndself : (selfPts.map FontParts.CPoint.pid).Nodup :=
    List.Nodup.sublist (hselfsub.map _) hnd
  have honmem : onPt ∈ c := hselfsub.subset (getLast?_mem honlast)
  have hj : c.get? (c.findIdx (fun q => q.pid == onPt.pid)) = some onPt :=
    findIdx_pid_get? c onPt honmem hnd
  set j := c.findIdx (fun q => q.pid == onPt.pid) with hjdef
  have hdecomp : c = c.take j ++ onPt :: c.drop (j + 1) := decomp_of_get? c j onPt hj
  have hlt : j < c.length := (List.get?_eq_some.mp hj).1
  have htakelen : (c.take j).length = j := List.length_take_of_le (Nat.le_of_lt hlt)
  have hnotmemc : onPt.pid ∉ (c.take j).map FontParts.CPoint.pid ∧
      onPt.pid ∉ (c.drop (j + 1)).map FontParts.CPoint.pid := by
    apply not_mem_map_of_nodup_decomp
    rw [← hdecomp]
    exact hnd
  have hnotmemself : onPt.pid ∉ selfPts.dropLast.map FontParts.CPoint.pid := by
    have h := hndself
    rw [← hselfdecomp] at h
    exact (not_mem_map_of_nodup_decomp FontParts.CPoint.pid selfPts.dropLast [] onPt
      (by simpa using h)).1
  have hspself : ∀ t, FontParts.setPointType selfPts onPt.pid t =
      selfPts.dropLast ++ [{ onPt with ptype := t }] := by
    intro t
    rw [← hselfdecomp]
    have := setPointType_decomp selfPts.dropLast [] onPt t hnotmemself (by simp)
    simpa using this
  have hspc : ∀ t, FontParts.setPointType c onPt.pid t =
      c.take j ++ { onPt with ptype := t } :: c.drop (j + 1) := by
    intro t
    conv_lhs => rw [hdecomp]
    exact setPointType_decomp _ _ onPt t hnotmemc.1 hnotmemc.2
  refine ⟨onPt, j, honlast, hj, ?_, ?_, ?_, ?_, ?_, ?_⟩
  · -- same type, with contour
    simp [FontParts.set_type, honlast]
  · -- same type, no contour
    simp [FontParts.set_type, honlast]
  · -- differing type, no contour
    intro t hne
    simp only [FontParts.set_type, honlast]
    rw [if_neg (fun h => hne h.symm)]
    exact ⟨_, rfl⟩
  · -- move/line to line/move
    intro t hne hml hold
    simp only [FontParts.set_type, honlast]
    rw [if_neg (fun h => hne h.symm), if_pos ⟨hml, hold⟩, hspself, hspc]
  · -- converting away from a curve
    intro t hne hnotml hnc hnq
    simp only [FontParts.set_type, honlast]
    rw [if_neg (fun h => hne h.symm), if_neg hnotml,
      if_pos (fun h => h.elim hnc hnq)]
    have hfold := foldl_removePoint_eq_filter selfPts.dropLast c hnd
    rw [hfold, hspself]
    have hfilterdecomp :
        c.filter (fun q => decide (q.pid ∉ selfPts.dropLast.map FontParts.CPoint.pid)) =
        (c.take j).filter
            (fun q => decide (q.pid ∉ selfPts.dropLast.map FontParts.CPoint.pid)) ++
          onPt ::
          (c.drop (j + 1)).filter
            (fun q => decide (q.pid ∉ selfPts.dropLast.map FontParts.CPoint.pid)) := by
      conv_lhs => rw [hdecomp]
      rw [List.filter_append, List.filter_cons_of_pos (by simpa using hnotmemself)]
    rw [hfilterdecomp]
    have hq1 : onPt.pid ∉ ((c.take j).filter
        (fun q => decide (q.pid ∉ selfPts.dropLast.map FontParts.CPoint.pid))).map
          FontParts.CPoint.pid := by
      intro hmem
      exact hnotmemc.1 (((List.filter_sublist _).map FontParts.CPoint.pid).subset hmem)
    have hq2 : onPt.pid ∉ ((c.drop (j + 1)).filter
        (fun q => decide (q.pid ∉ selfPts.dropLast.map FontParts.CPoint.pid))).map
          FontParts.CPoint.pid := by
      intro hmem
      exact hnotmemc.2 (((List.filter_sublist _).map FontParts.CPoint.pid).subset hmem)
    rw [setPointType_decomp _ _ onPt t hq1 hq2]
  · -- converting to a curve
    intro t ht hold
    have hne : onPt.ptype ≠ t := by
      rcases hold with h | h <;> rcases ht with h2 | h2 <;> rw [h, h2] <;> simp
    have hnotml : ¬ ((t = .move ∨ t = .line) ∧
        (onPt.ptype = .move ∨ onPt.ptype = .line)) := by
      rintro ⟨hml, -⟩
      rcases ht with h2 | h2 <;> rcases hml with h3 | h3 <;> rw [h2] at h3 <;> simp at h3
    have hcq : ¬ ¬ (t = .curve ∨ t = .qcurve) := fun h => h ht
    -- the segment index
    have hi : (FontParts.segmentsOf c).findIdx
        (fun s => s.map FontParts.CPoint.pid == selfPts.map FontParts.CPoint.pid) = k := by
      rw [hsel]
      exact findIdx_blocks (FontParts.segmentsOf c)
        (fun s hs => ne_nil_of_mem_segmentsOf hs)
        (by rw [hflat]; exact hnd) k hk
    -- the previous segment
    have hsegsne : FontParts.segmentsOf c ≠ [] := by
      intro h
      rw [h] at hk
      simp at hk
    have hprevex : ∃ prevSeg,
        (if k = 0 then (FontParts.segmentsOf c).getLast?
          else (FontParts.segmentsOf c).get? (k - 1)) = some prevSeg ∧
        prevSeg ∈ FontParts.segmentsOf c := by
      by_cases hk0 : k = 0
      · rw [if_pos hk0]
        cases hlast : (FontParts.segmentsOf c).getLast? with
        | none => exact absurd (List.getLast?_eq_none_iff.mp hlast) hsegsne
        | some s => exact ⟨s, rfl, getLast?_mem hlast⟩
      · rw [if_neg hk0]
        have hklt : k - 1 < (FontParts.segmentsOf c).length :=
          Nat.lt_of_le_of_lt (Nat.sub_le _ _) hk
        cases hg : (FontParts.segmentsOf c).get? (k - 1) with
        | none =>
          rw [List.get?_eq_none] at hg
          omega
        | some s =>
          refine ⟨s, rfl, ?_⟩
          have := List.get?_mem hg
          exact this
    obtain ⟨prevSeg, hprev, hprevmem⟩ := hprevex
    have hprevne : prevSeg ≠ [] := ne_nil_of_mem_segmentsOf hprevmem
    have hprevlast : prevSeg.getLast? = some (prevSeg.getLast hprevne) :=
      List.getLast?_eq_getLast prevSeg hprevne
    set prev := prevSeg.getLast hprevne with hprevdef
    refine ⟨prevSeg, prev, hprev, hprevlast, ?_⟩
    -- unfold the else branch
    simp only [FontParts.set_type, honlast]
    rw [if_neg (fun h => hne h), if_neg hnotml, if_neg hcq, hi, hprev]
    simp only [hprevlast]
    rw [← hjdef]
    -- the two insertions
    have hdropj : c.drop j = onPt :: c.drop (j + 1) := by
      rw [List.drop_eq_get_cons hlt, (List.get?_eq_some.mp hj).2]
    have hc1 : FontParts.insertPoint c j onPt.x onPt.y .offcurve f2 =
        c.take j ++ (⟨f2, onPt.x, onPt.y, .offcurve⟩ : FontParts.CPoint) ::
          onPt :: c.drop (j + 1) := by
      simp only [FontParts.insertPoint]
      rw [insertIdx_eq_take_drop c j _ (Nat.le_of_lt hlt), hdropj]
    rw [hc1]
    have hoff2 : (c.take j ++ (⟨f2, onPt.x, onPt.y, .offcurve⟩ : FontParts.CPoint) ::
        onPt :: c.drop (j + 1)).getD j default =
        (⟨f2, onPt.x, onPt.y, .offcurve⟩ : FontParts.CPoint) :=
      getD_append_cons _ _ _ _ j htakelen
    rw [hoff2]
    have hlen1 : j ≤ (c.take j ++ (⟨f2, onPt.x, onPt.y, .offcurve⟩ : FontParts.CPoint) ::
        onPt :: c.drop (j + 1)).length := by
      rw [List.length_append, htakelen]
      omega
    have hc2 : (c.take j ++ (⟨f2, onPt.x, onPt.y, .offcurve⟩ : FontParts.CPoint) ::
          onPt :: c.drop (j + 1)).insertIdx j
          (⟨f1, prev.x, prev.y, .offcurve⟩ : FontParts.CPoint) =
        c.take j ++ (⟨f1, prev.x, prev.y, .offcurve⟩ : FontParts.CPoint) ::
          (⟨f2, onPt.x, onPt.y, .offcurve⟩ : FontParts.CPoint) ::
          onPt :: c.drop (j + 1) := by
      rw [insertIdx_eq_take_drop _ j _ hlen1]
      rw [List.take_left' htakelen, List.drop_left' htakelen]
    simp only [FontParts.insertPoint]
    rw [hc2]
    have hoff1 : (c.take j ++ (⟨f1, prev.x, prev.y, .offcurve⟩ : FontParts.CPoint) ::
        (⟨f2, onPt.x, onPt.y, .offcurve⟩ : FontParts.CPoint) ::
        onPt :: c.drop (j + 1)).getD j default =
        (⟨f1, prev.x, prev.y, .offcurve⟩ : FontParts.CPoint) :=
      getD_append_cons _ _ _ _ j htakelen
    rw [hoff1]
    -- the pid of the on-curve point differs from the fresh pids
    have honpid : onPt.pid ∈ c.map FontParts.CPoint.pid :=
      List.mem_map.mpr ⟨onPt, honmem, rfl⟩
    have hne1 : onPt.pid ≠ f1 := fun h => hf1 (h ▸ honpid)
    have hne2 : onPt.pid ≠ f2 := fun h => hf2 (h ▸ honpid)
    -- re-typing the on-curve point
    have hsp1 : FontParts.setPointType
        [⟨f1, prev.x, prev.y, .offcurve⟩, ⟨f2, onPt.x, onPt.y, .offcurve⟩, onPt]
        onPt.pid t =
        [⟨f1, prev.x, prev.y, .offcurve⟩, ⟨f2, onPt.x, onPt.y, .offcurve⟩,
         { onPt with ptype := t }] := by
      have := setPointType_decomp
        [⟨f1, prev.x, prev.y, .offcurve⟩, ⟨f2, onPt.x, onPt.y, .offcurve⟩] [] onPt t
        (by simp [hne1, hne2]) (by simp)
      simpa using this
    have hsp2 : FontParts.setPointType
        (c.take j ++ (⟨f1, prev.x, prev.y, .offcurve⟩ : FontParts.CPoint) ::
          (⟨f2, onPt.x, onPt.y, .offcurve⟩ : FontParts.CPoint) ::
          onPt :: c.drop (j + 1)) onPt.pid t =
        c.take j ++ (⟨f1, prev.x, prev.y, .offcurve⟩ : FontParts.CPoint) ::
          (⟨f2, onPt.x, onPt.y, .offcurve⟩ : FontParts.CPoint) ::
          { onPt with ptype := t } :: c.drop (j + 1) := by
      have := setPointType_decomp
        (c.take j ++ [⟨f1, prev.x, prev.y, .offcurve⟩, ⟨f2, onPt.x, onPt.y, .offcurve⟩])
        (c.drop (j + 1)) onPt t
        (by
          simp only [List.map_append, List.mem_append]
          rintro (h | h)
          · exact hnotmemc.1 h
          · simp at h
            rcases h with h | h
            · exact hne1 h
            · exact hne2 h)
        hnotmemc.2
      simpa using this
    rw [hsp1, hsp2]

/-- Witness for C3: a one-point `line` segment of a three-point contour;
setting the type it already has changes nothing. -/
theorem segment_set_type_spec_witness :
    FontParts.set_type [⟨2, 100, 0, .line⟩]
      (some [⟨1, 0, 0, .line⟩, ⟨2, 100, 0, .line⟩, ⟨3, 100, 100, .line⟩])
      .line 10 11 =
    .ok ([⟨2, 100, 0, .line⟩],
         some [⟨1, 0, 0, .line⟩, ⟨2, 100, 0, .line⟩, ⟨3, 100, 100, .line⟩]) := by
  obtain ⟨onPt, j, hon, -, hsame, -, -, -, -, -⟩ :=
    segment_set_type_spec
      [⟨1, 0, 0, .line⟩, ⟨2, 100, 0, .line⟩, ⟨3, 100, 100, .line⟩]
      [⟨2, 100, 0, .line⟩] 1 10 11
      (by decide) (by decide) (by decide) (by rfl) (by decide) (by decide)
  have hval : ([⟨2, 100, 0, .line⟩] :
      List FontParts.CPoint).getLast? = some ⟨2, 100, 0, .line⟩ := rfl
  rw [hval] at hon
  have honv : (⟨2, 100, 0, .line⟩ : FontParts.CPoint) = onPt := Option.some.inj hon
  rw [← honv] at hsame
  exact hsame
